import Mathlib

/-!
# remindme: callback storage, scheduler and HTTP handler

A shallow embedding of `main.go` and `handle_new_callback.go`.

* Pointers to `callback` values are addresses into an explicit heap, so that the
  aliasing between the store, the channel and the `MarkDone` closure is kept.
* `error` values are their messages; `none` is `nil`.
* Every operation is one atomic step (the mutexes of the source make them so).
  A send on a full channel blocks: the operation then has no result (`none`).
* Goroutines that may run forever take a step budget and report `Status.running`
  when the budget is used up.
-/

namespace Remindme

/-! ## Machine integers, time -/

/-- Two's-complement value of an integer truncated to 64 bits (Go's int64 arithmetic wraps). -/
def wrapInt64 (x : Int) : Int :=
  (x + 9223372036854775808) % 18446744073709551616 - 9223372036854775808

/-- Value of a natural number truncated to 64 bits (Go's uint64 arithmetic wraps). -/
def wrapUint64 (n : Nat) : Nat := n % 18446744073709551616

/-- A `time.Time`: an instant, given by its exact number of nanoseconds since the Unix epoch. -/
abbrev Time := Int

/-- A `time.Duration`: a count of nanoseconds held in an int64. -/
abbrev Duration := Int

/-- Go's `Time.UnixNano`: `unixSec*1e9 + nsec` computed in int64, hence the exact count
truncated to 64 bits. -/
def Time.UnixNano (t : Time) : Int := wrapInt64 t

/-- Go's `Time.Add` for an instant and a duration. -/
def Time.Add (t : Time) (d : Duration) : Time := t + d

/-- Go's `time.Second`. -/
def Second : Duration := 1000000000

/-- Go's `time.Minute`. -/
def Minute : Duration := 60 * Second

/-- An `error` value, by its message. -/
abbrev error := String

/-! ## Data model -/

/-- A `*callback`: the identity of a callback object on the heap. -/
abbrev Addr := Nat

/-- The values of type `func() error` that occur: the closure built by `memStorage.save`
(it captures the storage and the callback `c`), and a function literal that returns a
fixed result. -/
inductive FuncVal where
  | memMarkDone (c : Addr)
  | const (r : Option error)
deriving DecidableEq, Repr

/-- The fields of `type callback struct` (the mutex `l` is never used by the source). -/
structure callback where
  ID : String
  Deadline : Time
  RemoteURL : String
  Done : Bool
  MarkDone : Option FuncVal
deriving DecidableEq, Repr

/-- The fields of `type memStorage struct`: the map `store`, and the buffered channel `c`
given by its queued elements (oldest first) and its capacity. -/
structure memStorage where
  store : String → Option Addr
  c : List Addr
  cap : Nat

/-- The state of the process: wall clock, the global `cbseq`, the heap of callbacks with its
allocation pointer, the storage, and the number of calls of `http.Post` made so far. -/
structure World where
  now : Time
  cbseq : Nat
  heap : Addr → callback
  nextAddr : Addr
  m : memStorage
  posts : Nat

/-- What one call of Go's `http.Post` returns, the pair `(resp, err)`, with the response
given by its status code. The library does the whole exchange, redirects included: it
returns the last response with a nil error whatever the status code of that response, it
returns an error without a response when no response was obtained, and it returns an error
together with the last response when its redirect policy ends the exchange ("stopped after
10 redirects"). Every combination of the two components is admitted here. -/
structure PostResult where
  resp : Option Nat
  err : Option error
deriving DecidableEq, Repr

/-- The world outside the process: what the `k`-th call of `http.Post` (counted from 0)
returns for a URL. -/
structure Env where
  remote : Nat → String → PostResult

/-! ## main.go -/

/-- The function `nextseq`: `atomic.AddUint64(&cbseq, 1)` formatted with `%v`. -/
def nextseq (w : World) : String × World :=
  let v := wrapUint64 (w.cbseq + 1)
  (toString v, { w with cbseq := v })

/-- The call `http.Post(url, "text/plain", nil)`: the library is outside the repository, so
its result `(resp, err)` is the one the environment gives for this call; the call is
counted. -/
def httpPost (env : Env) (w : World) (url : String) : PostResult × World :=
  (env.remote w.posts url, { w with posts := w.posts + 1 })

/-- The method `(*callback).execute`: `_, err := http.Post(...)`; the response is
discarded, and `err` is returned when it is not nil, nil otherwise. -/
def callback.execute (env : Env) (w : World) (c : Addr) : Option error × World :=
  let r := httpPost env w (w.heap c).RemoteURL
  match r.1.err with
  | some err => (some err, r.2)
  | none => (none, r.2)

/-- The method `(*memStorage).subscribe`: the channel field and a nil error. -/
def memStorage.subscribe (w : World) : List Addr × Option error :=
  (w.m.c, none)

/-- The closure that `memStorage.save` stores in `c.MarkDone`. -/
def memStorage.MarkDone (w : World) (c : Addr) : World × Option error :=
  let heap1 := Function.update w.heap c { w.heap c with Done := true }
  ({ w with heap := heap1,
            m := { w.m with store := Function.update w.m.store (heap1 c).ID none } }, none)

/-- The method `(*memStorage).save`. The result is `none` when the send `m.c <- c` finds the
buffer full: the call then blocks until a receiver takes an element. -/
def memStorage.save (w : World) (c : Addr) : Option (World × Option error) :=
  let r := nextseq w
  let w1 := r.2
  let heap1 := Function.update w1.heap c
    { w1.heap c with ID := r.1, MarkDone := some (FuncVal.memMarkDone c) }
  let store1 := Function.update w1.m.store (heap1 c).ID (some c)
  if w1.m.c.length < w1.m.cap then
    some ({ w1 with heap := heap1,
                    m := { w1.m with store := store1, c := w1.m.c ++ [c] } }, none)
  else
    none

/-- Calling a value of type `func() error`; calling the nil function panics (`none`). -/
def callFunc (w : World) : Option FuncVal → Option (World × Option error)
  | none => none
  | some (FuncVal.memMarkDone c) => some (memStorage.MarkDone w c)
  | some (FuncVal.const r) => some (w, r)

/-- The call `cb.MarkDone()`. -/
def callback.callMarkDone (w : World) (c : Addr) : Option (World × Option error) :=
  callFunc w (w.heap c).MarkDone

/-- The receive `cb := <-cbs` of `scheduler.run`; `none` when the channel is empty. -/
def recv (w : World) : Option (Addr × World) :=
  match w.m.c with
  | [] => none
  | a :: rest => some (a, { w with m := { w.m with c := rest } })

/-- What a per-callback task is seen to do: a call of `execute` at an instant, a call of
`MarkDone`. -/
inductive Event where
  | execute (c : Addr) (t : Time)
  | markDone (c : Addr)
deriving DecidableEq, Repr

/-- Whether an event is a call of `execute`. -/
def Event.isExecute : Event → Bool
  | .execute _ _ => true
  | .markDone _ => false

/-- Whether an event is a call of `MarkDone`. -/
def Event.isMarkDone : Event → Bool
  | .execute _ _ => false
  | .markDone _ => true

/-- How a task stands: still going when the step budget ended, returned after a nil
`MarkDone`, left the finalize loop and logged "giving up", or panicked on a nil function. -/
inductive Status where
  | running
  | returned
  | gaveUp
  | panicked
deriving DecidableEq, Repr

/-- A task after some steps: the state, the events so far (oldest first), the status. -/
structure Run where
  w : World
  trace : List Event
  status : Status

/-- The wait computed by `scheduler.schedule`:
`time.Duration(cb.Deadline.UnixNano() - time.Now().UnixNano())`, an int64 subtraction. -/
def scheduleWait (deadline now : Time) : Duration :=
  wrapInt64 (Time.UnixNano deadline - Time.UnixNano now)

/-- The receive `<-time.After(d)`: it completes `d` later, at once when `d` is not positive. -/
def timeAfter (w : World) (d : Duration) : World :=
  { w with now := w.now + max d 0 }

/-- The call `time.Sleep(d)`. -/
def timeSleep (w : World) (d : Duration) : World :=
  { w with now := w.now + max d 0 }

/-- The loop `i := 0; for i <= 5 { ... }` of `scheduler.schedule`. One unit of budget per
iteration. The body never assigns `i`. -/
def finalizeLoop (c : Addr) : Nat → Nat → World → List Event → Run
  | 0, _, w, tr => ⟨w, tr, Status.running⟩
  | fuel + 1, i, w, tr =>
    if i ≤ 5 then
      match callback.callMarkDone w c with
      | none => ⟨w, tr ++ [Event.markDone c], Status.panicked⟩
      | some (w1, none) => ⟨w1, tr ++ [Event.markDone c], Status.returned⟩
      | some (w1, some _) =>
        finalizeLoop c fuel i (timeSleep w1 (5 * Second)) (tr ++ [Event.markDone c])
    else
      ⟨w, tr, Status.gaveUp⟩

/-- The body of the goroutine started by `scheduler.schedule`, followed through the
goroutines it starts in turn for the same callback. One unit of budget per `execute`. -/
def scheduler.schedule (env : Env) (c : Addr) : Nat → World → List Event → Run
  | 0, w, tr => ⟨w, tr, Status.running⟩
  | fuel + 1, w, tr =>
    let wait := scheduleWait (w.heap c).Deadline w.now
    let w1 := timeAfter w wait
    match callback.execute env w1 c with
    | (some _, w2) => scheduler.schedule env c fuel w2 (tr ++ [Event.execute c w1.now])
    | (none, w2) => finalizeLoop c fuel 0 w2 (tr ++ [Event.execute c w1.now])

/-! ## handle_new_callback.go -/

/-- The struct `createCallbackRequest`. -/
structure createCallbackRequest where
  RemoteURL : String
  Duration : String
deriving DecidableEq, Repr

/-- The JSON bodies written: `response`, and `createCallbackResponse` with its embedded
`response`. -/
inductive Body where
  | response (Message : String)
  | createCallbackResponse (Message : String) (CallbackID : String)
deriving DecidableEq, Repr

/-- What was done to the `http.ResponseWriter`: the status code (200 unless `WriteHeader`
was called), the `content-type` entry of its header map (an entry set after `WriteHeader`
is in the map but is not sent), the body. -/
structure ResponseWriter where
  status : Nat
  contentType : Option String
  body : Option Body
deriving DecidableEq, Repr

/-- A response writer nothing was written to. -/
def ResponseWriter.fresh : ResponseWriter := ⟨200, none, none⟩

/-- The function `writeJSON`. -/
def writeJSON (wr : ResponseWriter) (res : Body) : ResponseWriter :=
  { wr with contentType := some "application/json", body := some res }

/-- The function `badRequest`. -/
def badRequest (wr : ResponseWriter) (err : Option error) : ResponseWriter :=
  match err with
  | some e => writeJSON { wr with status := 400 } (Body.response ("bad request: " ++ e))
  | none => wr

/-- The function `internalServerError`. -/
def internalServerError (wr : ResponseWriter) (err : Option error) : ResponseWriter :=
  match err with
  | some e => writeJSON { wr with status := 500 } (Body.response ("internal error: " ++ e))
  | none => wr

/-- The expression `&callback{RemoteURL: url, Deadline: deadline}`: a new heap object. -/
def newCallback (w : World) (url : String) (deadline : Time) : Addr × World :=
  (w.nextAddr,
   { w with heap := Function.update w.heap w.nextAddr ⟨"", deadline, url, false, none⟩,
            nextAddr := w.nextAddr + 1 })

/-- The handler returned by `handleNewCallback(s)`, run on a decoded request. The library
functions `url.ParseRequestURI` (only its verdict is used) and `time.ParseDuration`, and the
`save` method of the storage `s`, are parameters. The result is `none` when `save` blocks. -/
def handleNewCallback (parseRequestURI : String → Bool) (parseDuration : String → Option Duration)
    (save : World → Addr → Option (World × Option error))
    (w : World) (req : createCallbackRequest) : Option (World × ResponseWriter) :=
  if parseRequestURI req.RemoteURL = false then
    some (w, badRequest ResponseWriter.fresh
      (some ("invalid url: \"" ++ req.RemoteURL ++ "\"")))
  else
    match parseDuration req.Duration with
    | none =>
      some (w, badRequest ResponseWriter.fresh
        (some ("invalid duration: \"" ++ req.Duration ++ "\"")))
    | some dur =>
      if dur < 1 * Minute then
        some (w, badRequest ResponseWriter.fresh
          (some ("invalid duration: \"" ++ req.Duration ++
            "\" is less than a minute in the future")))
      else
        let r := newCallback w req.RemoteURL (Time.Add w.now dur)
        match save r.2 r.1 with
        | none => none
        | some (w1, some err) => some (w1, internalServerError ResponseWriter.fresh (some err))
        | some (w1, none) =>
          some (w1, writeJSON ResponseWriter.fresh
            (Body.createCallbackResponse "ok" (w1.heap r.1).ID))

/-! ## Runs of operations -/

/-- One operation of the core on the process state. -/
inductive Op where
  | save (c : Addr)
  | recv
  | execute (c : Addr)
  | markDone (c : Addr)
  | schedule (c : Addr) (fuel : Nat)
deriving DecidableEq, Repr

/-- What a run has shown so far: the IDs that `save` assigned, the callbacks that were
passed to `save`, the callbacks that were received from the channel; each oldest first. -/
structure History where
  ids : List String
  saved : List Addr
  delivered : List Addr
deriving DecidableEq, Repr

/-- The history of a run that has not started. -/
def History.empty : History := ⟨[], [], []⟩

/-- One operation, with its record in the history; `none` when the operation blocks or
panics. -/
def step (env : Env) (op : Op) (s : World × History) : Option (World × History) :=
  match op with
  | Op.save c =>
    match memStorage.save s.1 c with
    | none => none
    | some (w1, _) =>
      some (w1, { s.2 with ids := s.2.ids ++ [(w1.heap c).ID], saved := s.2.saved ++ [c] })
  | Op.recv =>
    match recv s.1 with
    | none => none
    | some (a, w1) => some (w1, { s.2 with delivered := s.2.delivered ++ [a] })
  | Op.execute c => some ((callback.execute env s.1 c).2, s.2)
  | Op.markDone c =>
    match callback.callMarkDone s.1 c with
    | none => none
    | some (w1, _) => some (w1, s.2)
  | Op.schedule c fuel => some ((scheduler.schedule env c fuel s.1 []).w, s.2)

/-- A sequence of operations, one after another. -/
def run (env : Env) : List Op → World × History → Option (World × History)
  | [], s => some s
  | op :: ops, s => (step env op s).bind (run env ops)

/-- The number of `save` operations in a sequence. -/
def countSaves : List Op → Nat
  | [] => 0
  | Op.save _ :: ops => countSaves ops + 1
  | _ :: ops => countSaves ops

/-- Whether an operation can call `MarkDone`. -/
def Op.callsMarkDone : Op → Bool
  | Op.markDone _ => true
  | Op.schedule _ _ => true
  | _ => false

/-- The process state built by `main` before the first `save`: counter 0, empty map, empty
channel of capacity 10; one callback object is allocated at address 0. -/
def World.init (now : Time) (url : String) (deadline : Time) : World :=
  { now := now, cbseq := 0, heap := fun _ => ⟨"", deadline, url, false, none⟩, nextAddr := 1,
    m := ⟨fun _ => none, [], 10⟩, posts := 0 }

/-- The number read from a string of decimal digits, continuing from `acc`. -/
def decimalValue (cs : List Char) (acc : Nat) : Nat :=
  cs.foldl (fun a ch => 10 * a + (ch.toNat - 48)) acc

/-- The state right after `save` of the callback at address 0 in the state built by `main`
(clock 2027-01-15, deadline 90 s later). -/
def World.saved : World :=
  match memStorage.save (World.init 1800000000000000000 "http://h/" 1800000090000000000) 0 with
  | some (w, _) => w
  | none => World.init 1800000000000000000 "http://h/" 1800000090000000000

/-- The state after the saved callback of `World.saved` was finalized by its `MarkDone`. -/
def World.finalized : World := (memStorage.MarkDone World.saved 0).1

/-- A state whose callback at address 0 carries a `MarkDone` that fails on every call, as a
storage that has become unavailable would install. -/
def World.failingFinalize : World :=
  { World.init 1800000000000000000 "http://h/" 1800000000000000000 with
    heap := fun _ => ⟨"1", 1800000000000000000, "http://h/", false,
      some (FuncVal.const (some "storage unavailable"))⟩ }

/-- An endpoint that answers every POST with the given status, which is not a redirect:
`http.Post` returns that response and a nil error. -/
def Env.always (status : Nat) : Env := ⟨fun _ _ => ⟨some status, none⟩⟩

/-- An endpoint that answers every POST with 307 and its own address: `http.Post` follows
until its redirect policy stops, and returns the last response with an error. -/
def Env.redirectsToItself : Env := ⟨fun _ _ => ⟨some 307, some "stopped after 10 redirects"⟩⟩

/-- An endpoint that cannot be reached for the first `n` POSTs and answers 200 afterwards. -/
def Env.failsFirst (n : Nat) : Env :=
  ⟨fun k _ => if k < n then ⟨none, some "connection refused"⟩ else ⟨some 200, none⟩⟩

/-- The sequence `save c; recv` repeated `k` times. -/
def saveRecvPairs (c : Addr) : Nat → List Op
  | 0 => []
  | k + 1 => Op.save c :: Op.recv :: saveRecvPairs c k

/-! ## The wait of `scheduler.schedule` -/

/-- The int64 subtraction of two truncated clock readings is the truncated true difference. -/
theorem scheduleWait_eq_wrap (deadline now : Time) :
    scheduleWait deadline now = wrapInt64 (deadline - now) := by
  show wrapInt64 (wrapInt64 (deadline : Int) - wrapInt64 (now : Int))
    = wrapInt64 ((deadline : Int) - (now : Int))
  unfold wrapInt64
  omega

/-- Truncation to int64 does not lower a value that is below 2^63. -/
theorem wrapInt64_ge (x : Int) (hhi : x < 9223372036854775808) : x ≤ wrapInt64 x := by
  unfold wrapInt64
  omega

/-- When the true difference is below 2^63, the wait is at least the true difference, and
the timer does not fire before the deadline. -/
theorem scheduleWait_ge (deadline now : Time) (hhi : deadline - now < 9223372036854775808) :
    deadline - now ≤ scheduleWait deadline now ∧
      deadline ≤ now + max (scheduleWait deadline now) 0 := by
  have h1 : deadline - now ≤ scheduleWait deadline now := by
    rw [scheduleWait_eq_wrap]
    exact wrapInt64_ge _ hhi
  have h2 := le_max_left (scheduleWait deadline now) 0
  exact ⟨h1, by linarith⟩

/-- C2, as stated, fails: for a deadline on 2400-01-01 and a clock on 2027-01-15 the wait
that `scheduler.schedule` computes is negative, below the true difference, and `execute` is
invoked at the current instant, before the deadline. It also fails for the deadline that
the handler sets from the largest duration when the clock has since been set back by one
nanosecond. -/
theorem scheduleWait_can_fall_short :
    scheduleWait 13569465600000000000 1800000000000000000
        < 13569465600000000000 - 1800000000000000000 ∧
      (timeAfter (World.init 1800000000000000000 "http://h/" 13569465600000000000)
        (scheduleWait 13569465600000000000 1800000000000000000)).now
        < 13569465600000000000 ∧
      (scheduler.schedule (Env.always 200) 0 1
        (World.init 1800000000000000000 "http://h/" 13569465600000000000) []).trace
        = [Event.execute 0 1800000000000000000] ∧
      scheduleWait (Time.Add 1800000000000000001 9223372036854775807) 1800000000000000000
        < Time.Add 1800000000000000001 9223372036854775807 - 1800000000000000000 := by
  refine ⟨by decide, by decide, by decide, by decide⟩

/-! ## `callback.execute` -/

/-- C3, as stated, fails: when the endpoint answers 500 Internal Server Error, `http.Post`
returns that response with a nil error, and `execute` returns nil. -/
theorem execute_nil_on_status_500 :
    (Env.always 500).remote 0 "http://h/" = ⟨some 500, none⟩ ∧
      (callback.execute (Env.always 500) (World.init 0 "http://h/" 0) 0).1 = none := by
  decide

/-- C3, amended: `execute` returns exactly the error that `http.Post` returns. It reports
failure precisely when that error is not nil, also when a response came with the error;
it reports success precisely when that error is nil, and so for a response of any status
code that `http.Post` hands back with a nil error. Each call of `execute` makes one call
of `http.Post` and changes nothing else. -/
theorem execute_returns_post_error (env : Env) (w : World) (c : Addr) :
    (callback.execute env w c).1 = (env.remote w.posts (w.heap c).RemoteURL).err ∧
      (∀ resp e, env.remote w.posts (w.heap c).RemoteURL = ⟨resp, some e⟩ →
        (callback.execute env w c).1 = some e) ∧
      (∀ status, env.remote w.posts (w.heap c).RemoteURL = ⟨some status, none⟩ →
        (callback.execute env w c).1 = none) ∧
      ((callback.execute env w c).1 = none →
        (env.remote w.posts (w.heap c).RemoteURL).err = none) ∧
      (callback.execute env w c).2 = { w with posts := w.posts + 1 } := by
  have hmain : (callback.execute env w c).1 = (env.remote w.posts (w.heap c).RemoteURL).err ∧
      (callback.execute env w c).2 = { w with posts := w.posts + 1 } := by
    unfold callback.execute httpPost
    cases h : (env.remote w.posts (w.heap c).RemoteURL).err with
    | none => simp [h]
    | some e0 => simp [h]
  refine ⟨hmain.1, ?_, ?_, ?_, hmain.2⟩
  · intro resp e h
    rw [hmain.1, h]
  · intro status h
    rw [hmain.1, h]
  · intro h
    rw [← hmain.1]; exact h

/-- The amended C3 at two endpoints: a 404 answer, which `http.Post` returns with a nil
error, makes `execute` return nil; an endpoint that redirects to itself, for which
`http.Post` returns the last response with the error of its redirect policy, makes
`execute` return that error. -/
theorem execute_returns_post_error_witness :
    (callback.execute (Env.always 404) (World.init 0 "http://h/" 0) 0).1 = none ∧
      (callback.execute Env.redirectsToItself (World.init 0 "http://h/" 0) 0).1
        = some "stopped after 10 redirects" :=
  ⟨(execute_returns_post_error (Env.always 404) (World.init 0 "http://h/" 0) 0).2.2.1 404 rfl,
    (execute_returns_post_error Env.redirectsToItself (World.init 0 "http://h/" 0) 0).2.1
      (some 307) "stopped after 10 redirects" rfl⟩

/-! ## The per-callback task of `scheduler.schedule` -/

/-- The outcome of `execute` when `http.Post` returns a nil error. -/
theorem execute_of_reply (env : Env) (w : World) (c : Addr)
    (h : (env.remote w.posts (w.heap c).RemoteURL).err = none) :
    callback.execute env w c = (none, { w with posts := w.posts + 1 }) := by
  simp [callback.execute, httpPost, h]

/-- The outcome of `execute` when `http.Post` returns an error. -/
theorem execute_of_failure (env : Env) (w : World) (c : Addr) (e : error)
    (h : (env.remote w.posts (w.heap c).RemoteURL).err = some e) :
    callback.execute env w c = (some e, { w with posts := w.posts + 1 }) := by
  simp [callback.execute, httpPost, h]

/-- The state after `execute`: one more call of `http.Post` was made, nothing else changed. -/
theorem execute_state (env : Env) (w : World) (c : Addr) :
    (callback.execute env w c).2 = { w with posts := w.posts + 1 } := by
  unfold callback.execute httpPost
  cases h : (env.remote w.posts (w.heap c).RemoteURL).err <;> simp [h]

/-- With a `MarkDone` that returns the same non-nil error on every call, the finalize loop
uses its whole budget: after `fuel` iterations it has called `MarkDone` `fuel` times, is
still running, and has left the heap as it was. -/
theorem finalizeLoop_const_err (c : Addr) (e : error) :
    ∀ (fuel : Nat) (w : World) (tr : List Event),
      (w.heap c).MarkDone = some (FuncVal.const (some e)) →
      (finalizeLoop c fuel 0 w tr).status = Status.running ∧
      (finalizeLoop c fuel 0 w tr).trace = tr ++ List.replicate fuel (Event.markDone c) ∧
      (finalizeLoop c fuel 0 w tr).w.heap = w.heap := by
  intro fuel
  induction fuel with
  | zero => intro w tr _; simp [finalizeLoop]
  | succ n ih =>
    intro w tr h
    have hcall : callback.callMarkDone w c = some (w, some e) := by
      simp [callback.callMarkDone, h, callFunc]
    have hnext := ih (timeSleep w (5 * Second)) (tr ++ [Event.markDone c]) h
    have hstep : finalizeLoop c (n + 1) 0 w tr
        = finalizeLoop c n 0 (timeSleep w (5 * Second)) (tr ++ [Event.markDone c]) := by
      simp [finalizeLoop, hcall]
    rw [hstep]
    refine ⟨hnext.1, ?_, hnext.2.2⟩
    rw [hnext.2.1, List.replicate_succ, List.append_assoc]
    rfl

/-- The task of a callback whose `execute` fails `k` times and then succeeds, with the
`MarkDone` closure of `memStorage.save`: it returns after `k + 1` calls of `execute`
followed by one call of `MarkDone`, with `Done` set. -/
theorem schedule_after_failures (env : Env) (c : Addr) :
    ∀ (k : Nat) (w : World) (fuel : Nat) (tr : List Event),
      (w.heap c).MarkDone = some (FuncVal.memMarkDone c) →
      (∀ j, j < k → ∃ e, (env.remote (w.posts + j) (w.heap c).RemoteURL).err = some e) →
      ((env.remote (w.posts + k) (w.heap c).RemoteURL).err = none) →
      k + 2 ≤ fuel →
      (scheduler.schedule env c fuel w tr).status = Status.returned ∧
      (∃ ts : List Time, ts.length = k + 1 ∧
        (scheduler.schedule env c fuel w tr).trace
          = tr ++ ts.map (Event.execute c) ++ [Event.markDone c]) ∧
      ((scheduler.schedule env c fuel w tr).w.heap c).Done = true ∧
      (scheduler.schedule env c fuel w tr).w.posts = w.posts + (k + 1) := by
  intro k
  induction k with
  | zero =>
    intro w fuel tr hmd _ hok hfuel
    obtain ⟨f, rfl⟩ : ∃ f, fuel = f + 2 := ⟨fuel - 2, by omega⟩
    have hex := execute_of_reply env (timeAfter w (scheduleWait (w.heap c).Deadline w.now)) c
      (by simpa [timeAfter] using hok)
    have hcall : callback.callMarkDone
        { timeAfter w (scheduleWait (w.heap c).Deadline w.now) with posts := w.posts + 1 } c
        = some (memStorage.MarkDone
            { timeAfter w (scheduleWait (w.heap c).Deadline w.now) with posts := w.posts + 1 } c) := by
      simp [callback.callMarkDone, timeAfter, hmd, callFunc]
    have hrun : scheduler.schedule env c (f + 2) w tr
        = ⟨(memStorage.MarkDone
              { timeAfter w (scheduleWait (w.heap c).Deadline w.now) with
                posts := w.posts + 1 } c).1,
            tr ++ [Event.execute c (timeAfter w (scheduleWait (w.heap c).Deadline w.now)).now]
              ++ [Event.markDone c],
            Status.returned⟩ := by
      rw [scheduler.schedule]
      simp only [hex]
      have hp : (timeAfter w (scheduleWait (w.heap c).Deadline w.now)).posts = w.posts := rfl
      rw [hp, finalizeLoop]
      simp [hcall, memStorage.MarkDone]
    rw [hrun]
    refine ⟨rfl, ⟨[(timeAfter w (scheduleWait (w.heap c).Deadline w.now)).now], rfl, rfl⟩, ?_, ?_⟩
    · simp [memStorage.MarkDone]
    · simp [memStorage.MarkDone, timeAfter]
  | succ k ih =>
    intro w fuel tr hmd hfail hok hfuel
    obtain ⟨f, rfl⟩ : ∃ f, fuel = f + 1 := ⟨fuel - 1, by omega⟩
    obtain ⟨e, he⟩ := hfail 0 (by omega)
    have hex := execute_of_failure env (timeAfter w (scheduleWait (w.heap c).Deadline w.now)) c e
      (by simpa [timeAfter] using he)
    have hp : (timeAfter w (scheduleWait (w.heap c).Deadline w.now)).posts = w.posts := rfl
    have hrun : scheduler.schedule env c (f + 1) w tr
        = scheduler.schedule env c f
            { timeAfter w (scheduleWait (w.heap c).Deadline w.now) with posts := w.posts + 1 }
            (tr ++ [Event.execute c (timeAfter w (scheduleWait (w.heap c).Deadline w.now)).now]) := by
      rw [scheduler.schedule]
      simp only [hex, hp]
    have hnext := ih
      { timeAfter w (scheduleWait (w.heap c).Deadline w.now) with posts := w.posts + 1 } f
      (tr ++ [Event.execute c (timeAfter w (scheduleWait (w.heap c).Deadline w.now)).now])
      (by simpa [timeAfter] using hmd)
      (by
        intro j hj
        obtain ⟨e1, he1⟩ := hfail (j + 1) (by omega)
        exact ⟨e1, by simpa [timeAfter, Nat.add_assoc, Nat.add_comm 1 j] using he1⟩)
      (by simpa [timeAfter, Nat.add_assoc, Nat.add_comm 1 k] using hok)
      (by omega)
    rw [hrun]
    obtain ⟨h1, ⟨ts, hlen, htr⟩, h3, h4⟩ := hnext
    refine ⟨h1, ⟨(timeAfter w (scheduleWait (w.heap c).Deadline w.now)).now :: ts, ?_, ?_⟩, h3, ?_⟩
    · simp [hlen]
    · rw [htr]; simp
    · rw [h4]; simp; omega

/-- C1, evaluated on the code: with an endpoint that answers 200 and a `MarkDone` that
returns an error on every call, the task never leaves the finalize loop. For every `n`,
after `n` iterations it has called `MarkDone` `n` times (more than 6 for `n > 6`) and is
still running; the branch that gives up is not reached, because `i` stays 0. -/
theorem finalize_retries_without_bound (n : Nat) :
    (scheduler.schedule (Env.always 200) 0 (n + 1) World.failingFinalize []).status
        = Status.running ∧
      (scheduler.schedule (Env.always 200) 0 (n + 1) World.failingFinalize []).trace
        = Event.execute 0 1800000000000000000 :: List.replicate n (Event.markDone 0) ∧
      ((scheduler.schedule (Env.always 200) 0 (n + 1) World.failingFinalize []).w.heap 0).Done
        = false := by
  have hrun : scheduler.schedule (Env.always 200) 0 (n + 1) World.failingFinalize []
      = finalizeLoop 0 n 0
          { timeAfter World.failingFinalize
              (scheduleWait (World.failingFinalize.heap 0).Deadline World.failingFinalize.now)
            with posts := 1 }
          [Event.execute 0 1800000000000000000] := by
    rw [scheduler.schedule]
    rw [execute_of_reply (Env.always 200) _ 0 rfl]
    rfl
  have h := finalizeLoop_const_err 0 "storage unavailable" n
    { timeAfter World.failingFinalize
        (scheduleWait (World.failingFinalize.heap 0).Deadline World.failingFinalize.now)
      with posts := 1 }
    [Event.execute 0 1800000000000000000] rfl
  rw [hrun]
  refine ⟨h.1, ?_, ?_⟩
  · rw [h.2.1]; rfl
  · rw [h.2.2]; rfl

/-- C6: for every `N ≥ 1`, when `http.Post` returns an error in attempts 1 to `N - 1` (so
`execute` fails) and a nil error in attempt `N` (so `execute` succeeds), the task
of a callback that carries the `MarkDone` of `memStorage.save` returns, given a budget above
`N`; it has called `execute` exactly `N` times, one after another, then `MarkDone` exactly
once and nothing else, and `Done` is true. -/
theorem schedule_executes_until_success (env : Env) (w : World) (c : Addr) (N fuel : Nat)
    (hN : 1 ≤ N)
    (hmd : (w.heap c).MarkDone = some (FuncVal.memMarkDone c))
    (hfail : ∀ j, j + 1 < N →
      ∃ e, (env.remote (w.posts + j) (w.heap c).RemoteURL).err = some e)
    (hok : (env.remote (w.posts + (N - 1)) (w.heap c).RemoteURL).err = none)
    (hfuel : N < fuel) :
    (scheduler.schedule env c fuel w []).status = Status.returned ∧
      (∃ ts : List Time, ts.length = N ∧
        (scheduler.schedule env c fuel w []).trace
          = ts.map (Event.execute c) ++ [Event.markDone c]) ∧
      ((scheduler.schedule env c fuel w []).w.heap c).Done = true ∧
      (scheduler.schedule env c fuel w []).w.posts = w.posts + N := by
  obtain ⟨k, rfl⟩ : ∃ k, N = k + 1 := ⟨N - 1, by omega⟩
  have h := schedule_after_failures env c k w fuel [] hmd
    (fun j hj => hfail j (by omega)) (by simpa using hok) (by omega)
  simpa using h

/-- C6 at an endpoint that is unreachable twice and then answers 200: three calls of
`execute`, one call of `MarkDone`, `Done` true. -/
theorem schedule_executes_until_success_witness :
    (scheduler.schedule (Env.failsFirst 2) 0 4 World.saved []).status = Status.returned ∧
      (∃ ts : List Time, ts.length = 3 ∧
        (scheduler.schedule (Env.failsFirst 2) 0 4 World.saved []).trace
          = ts.map (Event.execute 0) ++ [Event.markDone 0]) ∧
      ((scheduler.schedule (Env.failsFirst 2) 0 4 World.saved []).w.heap 0).Done = true ∧
      (scheduler.schedule (Env.failsFirst 2) 0 4 World.saved []).w.posts
        = World.saved.posts + 3 :=
  schedule_executes_until_success (Env.failsFirst 2) World.saved 0 3 4 (by decide) (by decide)
    (fun j hj => ⟨"connection refused", by
      have hj2 : j < 2 := by omega
      simp [Env.failsFirst, World.saved, memStorage.save, nextseq, World.init, hj2]⟩)
    (by decide) (by decide)

/-! ## `memStorage.save` and its `MarkDone` closure -/

/-- The result of `save` when the channel has room. -/
theorem save_of_room (w : World) (c : Addr) (h : w.m.c.length < w.m.cap) :
    memStorage.save w c = some
      ({ w with
          cbseq := wrapUint64 (w.cbseq + 1),
          heap := Function.update w.heap c
            { w.heap c with ID := toString (wrapUint64 (w.cbseq + 1)),
                            MarkDone := some (FuncVal.memMarkDone c) },
          m := { w.m with
            store := Function.update w.m.store (toString (wrapUint64 (w.cbseq + 1))) (some c),
            c := w.m.c ++ [c] } }, none) := by
  simp [memStorage.save, nextseq, h]

/-- `save` blocks exactly when the channel is full. -/
theorem save_eq_none_iff (w : World) (c : Addr) :
    memStorage.save w c = none ↔ w.m.cap ≤ w.m.c.length := by
  simp [memStorage.save, nextseq]

/-- A `save` that returns found room in the channel. -/
theorem room_of_save (w : World) (c : Addr) (r : World × Option error)
    (h : memStorage.save w c = some r) : w.m.c.length < w.m.cap := by
  by_contra hfull
  have := (save_eq_none_iff w c).2 (by omega)
  rw [this] at h
  exact Option.noConfusion h

/-- C5: when `save` returns, the error is nil, and the callback is as before except for
`ID` and `MarkDone`: `Deadline`, `RemoteURL` and `Done` are unchanged, and so is every
other callback. `save` returns whenever the channel has room, and blocks in the send
otherwise. -/
theorem save_changes_only_ID_and_MarkDone (w : World) (c : Addr) :
    (∀ w1 err, memStorage.save w c = some (w1, err) →
      err = none ∧
      w1.heap c = { w.heap c with ID := (w1.heap c).ID, MarkDone := (w1.heap c).MarkDone } ∧
      (w1.heap c).Deadline = (w.heap c).Deadline ∧
      (w1.heap c).RemoteURL = (w.heap c).RemoteURL ∧
      (w1.heap c).Done = (w.heap c).Done ∧
      (∀ a, a ≠ c → w1.heap a = w.heap a)) ∧
    (w.m.c.length < w.m.cap → ∃ w1, memStorage.save w c = some (w1, none)) ∧
    (memStorage.save w c = none ↔ w.m.cap ≤ w.m.c.length) := by
  refine ⟨?_, fun h => ⟨_, save_of_room w c h⟩, save_eq_none_iff w c⟩
  intro w1 err hs
  have hroom := room_of_save w c _ hs
  rw [save_of_room w c hroom] at hs
  injection hs with hs
  injection hs with hw herr
  subst hw
  refine ⟨herr.symm, ?_, ?_, ?_, ?_, ?_⟩
  · simp
  · simp
  · simp
  · simp
  · intro a ha
    simp [Function.update, ha]

/-- C5 at the state built by `main`: `save` of the callback at address 0 returns nil and
keeps its deadline, URL and `Done`. -/
theorem save_changes_only_ID_and_MarkDone_witness :
    ∃ w1, memStorage.save (World.init 1800000000000000000 "http://h/" 1800000090000000000) 0
        = some (w1, none) ∧
      (w1.heap 0).Deadline = 1800000090000000000 ∧ (w1.heap 0).RemoteURL = "http://h/" ∧
      (w1.heap 0).Done = false := by
  obtain ⟨w1, hw1⟩ := (save_changes_only_ID_and_MarkDone
    (World.init 1800000000000000000 "http://h/" 1800000090000000000) 0).2.1 (by decide)
  have h := (save_changes_only_ID_and_MarkDone
    (World.init 1800000000000000000 "http://h/" 1800000090000000000) 0).1 w1 none hw1
  exact ⟨w1, hw1, h.2.2.1, h.2.2.2.1, h.2.2.2.2.1⟩

/-- Right after `save`, the callback carries the closure that captures it. -/
theorem save_installs_MarkDone (w : World) (c : Addr) (w1 : World) (err : Option error)
    (hs : memStorage.save w c = some (w1, err)) :
    (w1.heap c).MarkDone = some (FuncVal.memMarkDone c) := by
  have hroom := room_of_save w c _ hs
  rw [save_of_room w c hroom] at hs
  injection hs with hs
  injection hs with hw herr
  subst hw
  simp

/-- Running the `MarkDone` closure a second time changes nothing. -/
theorem markDone_closure_idem (w : World) (c : Addr) :
    memStorage.MarkDone (memStorage.MarkDone w c).1 c = ((memStorage.MarkDone w c).1, none) := by
  simp [memStorage.MarkDone, Function.update_idem]

/-- C7: for every state and every callback that carries the `MarkDone` closure installed
by `save`, the call returns nil, sets `Done`, leaves the store without an entry under the
callback's ID and with every other entry as before, and changes nothing else; a second
call returns nil again and leaves the state as it is. -/
theorem markDone_removes_entry (w : World) (c : Addr)
    (h : (w.heap c).MarkDone = some (FuncVal.memMarkDone c)) :
    ∃ w1, callback.callMarkDone w c = some (w1, none) ∧
      (w1.heap c).Done = true ∧
      w1.heap c = { w.heap c with Done := true } ∧
      (∀ a, a ≠ c → w1.heap a = w.heap a) ∧
      w1.m.store (w.heap c).ID = none ∧
      (∀ k, k ≠ (w.heap c).ID → w1.m.store k = w.m.store k) ∧
      w1.m.c = w.m.c ∧ w1.cbseq = w.cbseq ∧ w1.now = w.now ∧ w1.posts = w.posts ∧
      callback.callMarkDone w1 c = some (w1, none) := by
  refine ⟨(memStorage.MarkDone w c).1, ?_, ?_, ?_, ?_, ?_, ?_, rfl, rfl, rfl, rfl, ?_⟩
  · simp [callback.callMarkDone, h, callFunc, memStorage.MarkDone]
  · simp [memStorage.MarkDone]
  · simp [memStorage.MarkDone]
  · intro a ha
    simp [memStorage.MarkDone, Function.update, ha]
  · simp [memStorage.MarkDone]
  · intro k hk
    simp [memStorage.MarkDone, Function.update, hk]
  · have hfield : ((memStorage.MarkDone w c).1.heap c).MarkDone
        = some (FuncVal.memMarkDone c) := by
      simp [memStorage.MarkDone, h]
    rw [callback.callMarkDone, hfield, callFunc, markDone_closure_idem]

/-- C7 at the callback saved in the state built by `main`: the call returns nil, `Done` is
true, and the entry under ID "1" is gone. -/
theorem markDone_removes_entry_witness :
    ∃ w1, callback.callMarkDone World.saved 0 = some (w1, none) ∧
      (w1.heap 0).Done = true ∧ w1.m.store "1" = none ∧
      callback.callMarkDone w1 0 = some (w1, none) := by
  obtain ⟨w1, h1, h2, _, _, h5, _, _, _, _, _, h11⟩ :=
    markDone_removes_entry World.saved 0 (by decide)
  exact ⟨w1, h1, h2, h5, h11⟩

/-! ## Decimal formatting -/

/-- A decimal digit character reads back as its digit. -/
theorem digitChar_value (d : Nat) (h : d < 10) : (Nat.digitChar d).toNat - 48 = d := by
  interval_cases d <;> rfl

/-- Reading the digits produced for `n` in front of `ds` is reading `ds` from `n`. -/
theorem toDigitsCore_value :
    ∀ (fuel n : Nat) (ds : List Char), n < fuel →
      decimalValue (Nat.toDigitsCore 10 fuel n ds) 0 = decimalValue ds n := by
  intro fuel
  induction fuel with
  | zero => intro n ds h; omega
  | succ f ih =>
    intro n ds h
    have hd := digitChar_value (n % 10) (Nat.mod_lt _ (by decide))
    rw [Nat.toDigitsCore]
    by_cases h0 : n / 10 = 0
    · simp only [h0, if_true]
      have hn : n % 10 = n := by omega
      simp only [decimalValue, List.foldl_cons, Nat.mul_zero, Nat.zero_add, hd]
      rw [hn]
    · simp only [h0, if_false]
      rw [ih (n / 10) _ (by omega)]
      have hn : 10 * (n / 10) + n % 10 = n := Nat.div_add_mod n 10
      simp [decimalValue, hd, hn]

/-- The decimal string of a number reads back as the number. -/
theorem decimalValue_toString (n : Nat) : decimalValue (toString n).data 0 = n := by
  show decimalValue (Nat.toDigits 10 n).asString.data 0 = n
  rw [List.asString, Nat.toDigits, toDigitsCore_value (n + 1) n [] (by omega)]
  rfl

/-- Distinct numbers have distinct decimal strings. -/
theorem toString_nat_injective (a b : Nat) (h : toString a = toString b) : a = b := by
  have := congrArg (fun s : String => decimalValue s.data 0) h
  simpa [decimalValue_toString] using this

/-- The decimal string of a number is not empty. -/
theorem toString_nat_ne_empty (n : Nat) : toString n ≠ "" := by
  intro h
  have hlen : (Nat.toDigits 10 n).length = 0 := by
    have hd : (toString n).data = (Nat.toDigits 10 n) := rfl
    rw [← hd, h]
    rfl
  have hpos : 0 < (Nat.toDigits 10 n).length := by
    rw [Nat.toDigits, Nat.toDigitsCore]
    by_cases h0 : n / 10 = 0
    · simp [h0]
    · simp only [h0, if_false]
      rw [Nat.toDigitsCore_lens_eq]
      omega
  omega

/-! ## What the operations leave alone -/

/-- The finalize loop, one iteration: `i` above 5. -/
theorem finalizeLoop_succ_gaveUp (c : Addr) (n i : Nat) (w : World) (tr : List Event)
    (hi : ¬ i ≤ 5) : finalizeLoop c (n + 1) i w tr = ⟨w, tr, Status.gaveUp⟩ := by
  rw [finalizeLoop]; simp [hi]

/-- The finalize loop, one iteration: `MarkDone` is the nil function. -/
theorem finalizeLoop_succ_panicked (c : Addr) (n i : Nat) (w : World) (tr : List Event)
    (hi : i ≤ 5) (h : callback.callMarkDone w c = none) :
    finalizeLoop c (n + 1) i w tr = ⟨w, tr ++ [Event.markDone c], Status.panicked⟩ := by
  rw [finalizeLoop]; simp [hi, h]

/-- The finalize loop, one iteration: `MarkDone` returns nil. -/
theorem finalizeLoop_succ_returned (c : Addr) (n i : Nat) (w w1 : World) (tr : List Event)
    (hi : i ≤ 5) (h : callback.callMarkDone w c = some (w1, none)) :
    finalizeLoop c (n + 1) i w tr = ⟨w1, tr ++ [Event.markDone c], Status.returned⟩ := by
  rw [finalizeLoop]; simp [hi, h]

/-- The finalize loop, one iteration: `MarkDone` returns an error; `i` is passed on as is. -/
theorem finalizeLoop_succ_again (c : Addr) (n i : Nat) (w w1 : World) (tr : List Event)
    (e : error) (hi : i ≤ 5) (h : callback.callMarkDone w c = some (w1, some e)) :
    finalizeLoop c (n + 1) i w tr
      = finalizeLoop c n i (timeSleep w1 (5 * Second)) (tr ++ [Event.markDone c]) := by
  rw [finalizeLoop]; simp [hi, h]

/-- The task, one attempt: whatever `execute` returns, it has made one call of `http.Post`
at the instant the timer fired, and the task goes on as the source says. -/
theorem schedule_succ (env : Env) (c : Addr) (n : Nat) (w : World) (tr : List Event) :
    (∃ e, scheduler.schedule env c (n + 1) w tr
        = scheduler.schedule env c n
            { w with now := w.now + max (scheduleWait (w.heap c).Deadline w.now) 0,
                     posts := w.posts + 1 }
            (tr ++ [Event.execute c (w.now + max (scheduleWait (w.heap c).Deadline w.now) 0)]) ∧
          (env.remote w.posts (w.heap c).RemoteURL).err = some e) ∨
    (scheduler.schedule env c (n + 1) w tr
        = finalizeLoop c n 0
            { w with now := w.now + max (scheduleWait (w.heap c).Deadline w.now) 0,
                     posts := w.posts + 1 }
            (tr ++ [Event.execute c (w.now + max (scheduleWait (w.heap c).Deadline w.now) 0)]) ∧
          (env.remote w.posts (w.heap c).RemoteURL).err = none) := by
  cases hr : (env.remote w.posts (w.heap c).RemoteURL).err with
  | some e =>
    left
    refine ⟨e, ?_, rfl⟩
    rw [scheduler.schedule]
    rw [execute_of_failure env (timeAfter w (scheduleWait (w.heap c).Deadline w.now)) c e
      (by simpa [timeAfter] using hr)]
    rfl
  | none =>
    right
    refine ⟨?_, rfl⟩
    rw [scheduler.schedule]
    rw [execute_of_reply env (timeAfter w (scheduleWait (w.heap c).Deadline w.now)) c
      (by simpa [timeAfter] using hr)]
    rfl

/-- A call of `MarkDone` leaves the counter and the channel alone and never clears `Done`. -/
theorem callMarkDone_frame (w : World) (c : Addr) (w1 : World) (err : Option error)
    (h : callback.callMarkDone w c = some (w1, err)) :
    w1.cbseq = w.cbseq ∧ w1.m.c = w.m.c ∧ w1.m.cap = w.m.cap ∧
      ∀ a, (w.heap a).Done = true → (w1.heap a).Done = true := by
  unfold callback.callMarkDone at h
  cases hf : (w.heap c).MarkDone with
  | none => rw [hf] at h; simp [callFunc] at h
  | some f =>
    rw [hf] at h
    cases f with
    | const r =>
      simp only [callFunc, Option.some.injEq, Prod.mk.injEq] at h
      obtain ⟨rfl, _⟩ := h
      exact ⟨rfl, rfl, rfl, fun _ ha => ha⟩
    | memMarkDone c1 =>
      simp only [callFunc, Option.some.injEq] at h
      have hw : w1 = (memStorage.MarkDone w c1).1 := by rw [h]
      subst hw
      refine ⟨rfl, rfl, rfl, ?_⟩
      intro a ha
      by_cases hac : a = c1
      · subst hac; simp [memStorage.MarkDone]
      · simpa [memStorage.MarkDone, Function.update, hac] using ha

/-- The finalize loop only adds events, leaves the counter and the channel alone, never
clears `Done`, and leaves the heap alone unless it calls `MarkDone`. -/
theorem finalizeLoop_frame (c : Addr) :
    ∀ (fuel i : Nat) (w : World) (tr : List Event),
      (∃ more, (finalizeLoop c fuel i w tr).trace = tr ++ more) ∧
      (finalizeLoop c fuel i w tr).w.cbseq = w.cbseq ∧
      (finalizeLoop c fuel i w tr).w.m.c = w.m.c ∧
      (finalizeLoop c fuel i w tr).w.m.cap = w.m.cap ∧
      (∀ a, (w.heap a).Done = true → ((finalizeLoop c fuel i w tr).w.heap a).Done = true) ∧
      ((∀ ev ∈ (finalizeLoop c fuel i w tr).trace, ev.isMarkDone = false) →
        (finalizeLoop c fuel i w tr).w.heap = w.heap) := by
  intro fuel
  induction fuel with
  | zero =>
    intro i w tr
    exact ⟨⟨[], by simp [finalizeLoop]⟩, rfl, rfl, rfl, fun _ ha => ha, fun _ => rfl⟩
  | succ n ih =>
    intro i w tr
    by_cases hi : i ≤ 5
    · cases hcall : callback.callMarkDone w c with
      | none =>
        rw [finalizeLoop_succ_panicked c n i w tr hi hcall]
        exact ⟨⟨[Event.markDone c], rfl⟩, rfl, rfl, rfl, fun _ ha => ha, fun _ => rfl⟩
      | some r =>
        obtain ⟨w1, err⟩ := r
        have hfr := callMarkDone_frame w c w1 err hcall
        cases err with
        | none =>
          rw [finalizeLoop_succ_returned c n i w w1 tr hi hcall]
          refine ⟨⟨[Event.markDone c], rfl⟩, hfr.1, hfr.2.1, hfr.2.2.1, hfr.2.2.2, ?_⟩
          intro hno
          have := hno (Event.markDone c) (by simp)
          simp [Event.isMarkDone] at this
        | some e =>
          rw [finalizeLoop_succ_again c n i w w1 tr e hi hcall]
          obtain ⟨⟨more, hmore⟩, h2, h3, h4, h5, _⟩ :=
            ih i (timeSleep w1 (5 * Second)) (tr ++ [Event.markDone c])
          refine ⟨⟨Event.markDone c :: more, by simp [hmore]⟩, ?_, ?_, ?_, ?_, ?_⟩
          · rw [h2]; exact hfr.1
          · rw [h3]; exact hfr.2.1
          · rw [h4]; exact hfr.2.2.1
          · intro a ha
            exact h5 a (hfr.2.2.2 a ha)
          · intro hno
            have := hno (Event.markDone c) (by rw [hmore]; simp)
            simp [Event.isMarkDone] at this
    · rw [finalizeLoop_succ_gaveUp c n i w tr hi]
      exact ⟨⟨[], by simp⟩, rfl, rfl, rfl, fun _ ha => ha, fun _ => rfl⟩

/-- The task of a callback only adds events, leaves the counter and the channel alone,
never clears `Done`, and leaves the heap alone unless it calls `MarkDone`. -/
theorem schedule_frame (env : Env) (c : Addr) :
    ∀ (fuel : Nat) (w : World) (tr : List Event),
      (∃ more, (scheduler.schedule env c fuel w tr).trace = tr ++ more) ∧
      (scheduler.schedule env c fuel w tr).w.cbseq = w.cbseq ∧
      (scheduler.schedule env c fuel w tr).w.m.c = w.m.c ∧
      (scheduler.schedule env c fuel w tr).w.m.cap = w.m.cap ∧
      (∀ a, (w.heap a).Done = true →
        ((scheduler.schedule env c fuel w tr).w.heap a).Done = true) ∧
      ((∀ ev ∈ (scheduler.schedule env c fuel w tr).trace, ev.isMarkDone = false) →
        (scheduler.schedule env c fuel w tr).w.heap = w.heap) := by
  intro fuel
  induction fuel with
  | zero =>
    intro w tr
    exact ⟨⟨[], by simp [scheduler.schedule]⟩, rfl, rfl, rfl, fun _ ha => ha, fun _ => rfl⟩
  | succ n ih =>
    intro w tr
    rcases schedule_succ env c n w tr with ⟨e, hrun, _⟩ | ⟨hrun, _⟩
    · rw [hrun]
      obtain ⟨⟨more, hmore⟩, h2, h3, h4, h5, h6⟩ := ih
        { w with now := w.now + max (scheduleWait (w.heap c).Deadline w.now) 0,
                 posts := w.posts + 1 }
        (tr ++ [Event.execute c (w.now + max (scheduleWait (w.heap c).Deadline w.now) 0)])
      exact ⟨⟨Event.execute c (w.now + max (scheduleWait (w.heap c).Deadline w.now) 0) :: more,
        by rw [hmore]; simp⟩, h2, h3, h4, h5, h6⟩
    · rw [hrun]
      obtain ⟨⟨more, hmore⟩, h2, h3, h4, h5, h6⟩ := finalizeLoop_frame c n 0
        { w with now := w.now + max (scheduleWait (w.heap c).Deadline w.now) 0,
                 posts := w.posts + 1 }
        (tr ++ [Event.execute c (w.now + max (scheduleWait (w.heap c).Deadline w.now) 0)])
      exact ⟨⟨Event.execute c (w.now + max (scheduleWait (w.heap c).Deadline w.now) 0) :: more,
        by rw [hmore]; simp⟩, h2, h3, h4, h5, h6⟩

/-! ## Runs -/

/-- What a `save` step does to the state and to the history. -/
theorem step_save (env : Env) (c : Addr) (w w1 : World) (h h1 : History)
    (hs : step env (Op.save c) (w, h) = some (w1, h1)) :
    w1.cbseq = wrapUint64 (w.cbseq + 1) ∧ w1.m.c = w.m.c ++ [c] ∧ w1.m.cap = w.m.cap ∧
      h1.ids = h.ids ++ [toString (wrapUint64 (w.cbseq + 1))] ∧
      h1.saved = h.saved ++ [c] ∧ h1.delivered = h.delivered ∧
      (∀ a, (w1.heap a).Done = (w.heap a).Done) := by
  simp only [step] at hs
  cases hsave : memStorage.save w c with
  | none => rw [hsave] at hs; exact Option.noConfusion hs
  | some r =>
    obtain ⟨w2, err⟩ := r
    rw [hsave] at hs
    simp only [Option.some.injEq, Prod.mk.injEq] at hs
    obtain ⟨hw, hh⟩ := hs
    subst hw
    have hroom := room_of_save w c _ hsave
    rw [save_of_room w c hroom] at hsave
    simp only [Option.some.injEq, Prod.mk.injEq] at hsave
    obtain ⟨hw2, _⟩ := hsave
    subst hw2
    subst hh
    refine ⟨rfl, rfl, rfl, by simp, rfl, rfl, ?_⟩
    intro a
    by_cases hac : a = c
    · subst hac; simp
    · simp [Function.update, hac]

/-- What a receive step does to the state and to the history. -/
theorem step_recv (env : Env) (w w1 : World) (h h1 : History)
    (hs : step env Op.recv (w, h) = some (w1, h1)) :
    ∃ a, w.m.c = a :: w1.m.c ∧ w1.cbseq = w.cbseq ∧ w1.m.cap = w.m.cap ∧
      h1.ids = h.ids ∧ h1.saved = h.saved ∧ h1.delivered = h.delivered ++ [a] ∧
      w1.heap = w.heap := by
  simp only [step, recv] at hs
  cases hc : w.m.c with
  | nil => rw [hc] at hs; exact Option.noConfusion hs
  | cons a rest =>
    rw [hc] at hs
    simp only [Option.some.injEq, Prod.mk.injEq] at hs
    obtain ⟨hw, hh⟩ := hs
    subst hw
    subst hh
    exact ⟨a, rfl, rfl, rfl, rfl, rfl, rfl, rfl⟩

/-- What a step other than `save` and receive does: counter, channel and history stay,
`Done` is not cleared, and the heap stays unless the step can call `MarkDone`. -/
theorem step_other (env : Env) (op : Op) (w w1 : World) (h h1 : History)
    (hsave : ∀ c, op ≠ Op.save c) (hrecv : op ≠ Op.recv)
    (hs : step env op (w, h) = some (w1, h1)) :
    w1.cbseq = w.cbseq ∧ w1.m.c = w.m.c ∧ w1.m.cap = w.m.cap ∧ h1 = h ∧
      (∀ a, (w.heap a).Done = true → (w1.heap a).Done = true) ∧
      (op.callsMarkDone = false → w1.heap = w.heap) := by
  cases op with
  | save c => exact absurd rfl (hsave c)
  | recv => exact absurd rfl hrecv
  | execute c =>
    simp only [step, Option.some.injEq, Prod.mk.injEq] at hs
    obtain ⟨hw, hh⟩ := hs
    have hex := execute_state env w c
    rw [hw] at hex
    subst hex
    exact ⟨rfl, rfl, rfl, hh.symm, fun _ ha => ha, fun _ => rfl⟩
  | markDone c =>
    simp only [step] at hs
    cases hcall : callback.callMarkDone w c with
    | none => rw [hcall] at hs; exact Option.noConfusion hs
    | some r =>
      obtain ⟨w2, err⟩ := r
      rw [hcall] at hs
      simp only [Option.some.injEq, Prod.mk.injEq] at hs
      obtain ⟨hw, hh⟩ := hs
      subst hw
      have hfr := callMarkDone_frame w c w2 err hcall
      exact ⟨hfr.1, hfr.2.1, hfr.2.2.1, hh.symm, hfr.2.2.2, fun hf => by simp [Op.callsMarkDone] at hf⟩
  | schedule c fuel =>
    simp only [step, Option.some.injEq, Prod.mk.injEq] at hs
    obtain ⟨hw, hh⟩ := hs
    subst hw
    obtain ⟨_, h2, h3, h4, h5, _⟩ := schedule_frame env c fuel w []
    exact ⟨h2, h3, h4, hh.symm, h5, fun hf => by simp [Op.callsMarkDone] at hf⟩

/-- A run of a non-empty sequence is a step followed by the run of the rest. -/
theorem run_cons (env : Env) (op : Op) (ops : List Op) (s r : World × History)
    (hr : run env (op :: ops) s = some r) :
    ∃ s1, step env op s = some s1 ∧ run env ops s1 = some r := by
  rw [run] at hr
  cases hstep : step env op s with
  | none => rw [hstep] at hr; exact Option.noConfusion hr
  | some s1 => rw [hstep] at hr; exact ⟨s1, rfl, hr⟩

/-- A run of two sequences in a row. -/
theorem run_append (env : Env) (ops1 ops2 : List Op) :
    ∀ s, run env (ops1 ++ ops2) s = (run env ops1 s).bind (run env ops2) := by
  induction ops1 with
  | nil => intro s; rfl
  | cons op ops ih =>
    intro s
    simp only [List.cons_append, run]
    cases step env op s with
    | none => rfl
    | some s1 => exact ih s1

/-- The IDs assigned in a run: the `j`-th `save` (counted from 0) of a run that starts with
counter `s` assigns the decimal string of `(s + 1 + j) mod 2^64`. -/
theorem run_ids (env : Env) :
    ∀ (ops : List Op) (w w1 : World) (h h1 : History),
      run env ops (w, h) = some (w1, h1) →
      h1.ids = h.ids ++
        (List.range (countSaves ops)).map (fun j => toString (wrapUint64 (w.cbseq + 1 + j))) := by
  intro ops
  induction ops with
  | nil =>
    intro w w1 h h1 hr
    simp only [run, Option.some.injEq, Prod.mk.injEq] at hr
    simp [countSaves, hr.2]
  | cons op ops ih =>
    intro w w1 h h1 hr
    obtain ⟨⟨w2, h2⟩, hstep, hrest⟩ := run_cons env op ops _ _ hr
    have hih := ih w2 w1 h2 h1 hrest
    by_cases hsv : ∃ c, op = Op.save c
    · obtain ⟨c, rfl⟩ := hsv
      obtain ⟨hseq, _, _, hids, _, _, _⟩ := step_save env c w w2 h h2 hstep
      rw [hih, hids, hseq]
      simp only [countSaves, List.range_succ_eq_map, List.map_cons, List.map_map,
        List.append_assoc, List.singleton_append, Nat.add_zero]
      congr 2
      apply List.map_congr_left
      intro j _
      simp only [Function.comp, wrapUint64]
      congr 1
      omega
    · have hsv2 : ∀ c, op ≠ Op.save c := fun c hc => hsv ⟨c, hc⟩
      have hcount : countSaves (op :: ops) = countSaves ops := by
        cases op with
        | save c => exact absurd rfl (hsv2 c)
        | recv => rfl
        | execute c => rfl
        | markDone c => rfl
        | schedule c fuel => rfl
      by_cases hrc : op = Op.recv
      · subst hrc
        obtain ⟨a, _, hseq, _, hids, _, _, _⟩ := step_recv env w w2 h h2 hstep
        rw [hih, hids, hseq, hcount]
      · obtain ⟨hseq, _, _, hh, _, _⟩ := step_other env op w w2 h h2 hsv2 hrc hstep
        rw [hih, hh, hseq, hcount]

/-- The channel holds what was saved and not yet received, in the order of the saves. -/
theorem run_stream (env : Env) :
    ∀ (ops : List Op) (w w1 : World) (h h1 : History),
      run env ops (w, h) = some (w1, h1) →
      h.delivered ++ w.m.c = h.saved → h1.delivered ++ w1.m.c = h1.saved := by
  intro ops
  induction ops with
  | nil =>
    intro w w1 h h1 hr hinv
    simp only [run, Option.some.injEq, Prod.mk.injEq] at hr
    rw [← hr.1, ← hr.2]; exact hinv
  | cons op ops ih =>
    intro w w1 h h1 hr hinv
    obtain ⟨⟨w2, h2⟩, hstep, hrest⟩ := run_cons env op ops _ _ hr
    apply ih w2 w1 h2 h1 hrest
    by_cases hsv : ∃ c, op = Op.save c
    · obtain ⟨c, rfl⟩ := hsv
      obtain ⟨_, hc, _, _, hsaved, hdel, _⟩ := step_save env c w w2 h h2 hstep
      rw [hc, hsaved, hdel, ← List.append_assoc, hinv]
    · have hsv2 : ∀ c, op ≠ Op.save c := fun c hc => hsv ⟨c, hc⟩
      by_cases hrc : op = Op.recv
      · subst hrc
        obtain ⟨a, hc, _, _, _, hsaved, hdel, _⟩ := step_recv env w w2 h h2 hstep
        rw [hsaved, hdel, ← hinv, hc]
        simp
      · obtain ⟨_, hc, _, hh, _, _⟩ := step_other env op w w2 h h2 hsv2 hrc hstep
        rw [hh, hc]; exact hinv

/-- Over a run, `Done` is not cleared, and it stays as it is when no operation of the run
can call `MarkDone`. -/
theorem run_done (env : Env) :
    ∀ (ops : List Op) (w w1 : World) (h h1 : History),
      run env ops (w, h) = some (w1, h1) →
      (∀ a, (w.heap a).Done = true → (w1.heap a).Done = true) ∧
      ((∀ op ∈ ops, op.callsMarkDone = false) → ∀ a, (w1.heap a).Done = (w.heap a).Done) := by
  intro ops
  induction ops with
  | nil =>
    intro w w1 h h1 hr
    simp only [run, Option.some.injEq, Prod.mk.injEq] at hr
    rw [← hr.1]
    exact ⟨fun _ ha => ha, fun _ _ => rfl⟩
  | cons op ops ih =>
    intro w w1 h h1 hr
    obtain ⟨⟨w2, h2⟩, hstep, hrest⟩ := run_cons env op ops _ _ hr
    obtain ⟨hmono, hsame⟩ := ih w2 w1 h2 h1 hrest
    have hfirst : (∀ a, (w.heap a).Done = true → (w2.heap a).Done = true) ∧
        (op.callsMarkDone = false → ∀ a, (w2.heap a).Done = (w.heap a).Done) := by
      by_cases hsv : ∃ c, op = Op.save c
      · obtain ⟨c, rfl⟩ := hsv
        obtain ⟨_, _, _, _, _, _, hd⟩ := step_save env c w w2 h h2 hstep
        exact ⟨fun a ha => by rw [hd a]; exact ha, fun _ a => hd a⟩
      · have hsv2 : ∀ c, op ≠ Op.save c := fun c hc => hsv ⟨c, hc⟩
        by_cases hrc : op = Op.recv
        · subst hrc
          obtain ⟨a, _, _, _, _, _, _, hheap⟩ := step_recv env w w2 h h2 hstep
          exact ⟨fun a ha => by rw [hheap]; exact ha, fun _ a => by rw [hheap]⟩
        · obtain ⟨_, _, _, _, hd, hheap⟩ := step_other env op w w2 h h2 hsv2 hrc hstep
          exact ⟨hd, fun hf a => by rw [hheap hf]⟩
    refine ⟨fun a ha => hmono a (hfirst.1 a ha), ?_⟩
    intro hno a
    rw [hsame (fun op1 h1 => hno op1 (List.mem_cons_of_mem _ h1)) a,
      hfirst.2 (hno op (List.mem_cons_self _ _)) a]

/-! ## The identifiers assigned by `save` -/

/-- The number of `save` operations in two sequences in a row. -/
theorem countSaves_append (ops1 ops2 : List Op) :
    countSaves (ops1 ++ ops2) = countSaves ops1 + countSaves ops2 := by
  induction ops1 with
  | nil => simp [countSaves]
  | cons op ops ih =>
    cases op with
    | save c =>
      show countSaves (Op.save c :: (ops ++ ops2)) = countSaves (Op.save c :: ops) + countSaves ops2
      simp only [countSaves, ih]
      omega
    | recv => simpa [countSaves] using ih
    | execute c => simpa [countSaves] using ih
    | markDone c => simpa [countSaves] using ih
    | schedule c fuel => simpa [countSaves] using ih

/-- The number of `save` operations in `k` pairs of `save` and receive. -/
theorem countSaves_saveRecvPairs (c : Addr) (k : Nat) : countSaves (saveRecvPairs c k) = k := by
  induction k with
  | zero => rfl
  | succ k ih => simp [saveRecvPairs, countSaves, ih]

/-- With an empty channel of positive capacity, `k` pairs of `save` and receive all return,
and the channel is empty again. -/
theorem run_saveRecvPairs (env : Env) (c : Addr) :
    ∀ (k : Nat) (w : World) (h : History), w.m.c = [] → 0 < w.m.cap →
      ∃ w1 h1, run env (saveRecvPairs c k) (w, h) = some (w1, h1) ∧
        w1.m.c = [] ∧ w1.m.cap = w.m.cap := by
  intro k
  induction k with
  | zero => intro w h hc _; exact ⟨w, h, rfl, hc, rfl⟩
  | succ k ih =>
    intro w h hc hcap
    have hroom : w.m.c.length < w.m.cap := by rw [hc]; exact hcap
    obtain ⟨w1, h1, hrun, hc1, hcap1⟩ := ih
      { w with
          cbseq := wrapUint64 (w.cbseq + 1),
          heap := Function.update w.heap c
            { w.heap c with ID := toString (wrapUint64 (w.cbseq + 1)),
                            MarkDone := some (FuncVal.memMarkDone c) },
          m := { w.m with
            store := Function.update w.m.store (toString (wrapUint64 (w.cbseq + 1))) (some c),
            c := [] } }
      { h with ids := h.ids ++ [toString (wrapUint64 (w.cbseq + 1))],
               saved := h.saved ++ [c], delivered := h.delivered ++ [c] }
      rfl hcap
    refine ⟨w1, h1, ?_, hc1, hcap1⟩
    rw [← hrun]
    simp [saveRecvPairs, run, step, save_of_room w c hroom, recv, hc]

/-- The last element of a list of `n + 1` values of a function of the position. -/
theorem getLast?_map_range_succ (f : Nat → String) (n : Nat) :
    ((List.range (n + 1)).map f).getLast? = some (f n) := by
  rw [List.range_succ, List.map_append, List.map_singleton, List.getLast?_concat]

/-- A list of `n + 1` values of a function of the position has a repeated element when the
first and the last value agree and `n` is positive. -/
theorem not_nodup_map_range_succ (f : Nat → String) (n : Nat) (hn : 0 < n) (hf : f 0 = f n) :
    ¬ ((List.range (n + 1)).map f).Nodup := by
  intro hnd
  have h0 : 0 ∈ List.range (n + 1) := List.mem_range.2 (Nat.succ_pos n)
  have h1 : n ∈ List.range (n + 1) := List.mem_range.2 (Nat.lt_succ_self n)
  have := List.inj_on_of_nodup_map hnd h0 h1 hf
  omega

/-- The run of `n` pairs of `save` and receive followed by one more `save`, from an empty
channel of positive capacity: every operation returns, and the IDs are those of `n + 1`
saves. -/
theorem run_saveRecvPairs_save (env : Env) (c : Addr) (n : Nat) (w : World)
    (hc : w.m.c = []) (hcap : 0 < w.m.cap) :
    ∃ w1 h1, run env (saveRecvPairs c n ++ [Op.save c]) (w, History.empty) = some (w1, h1) ∧
      h1.ids = (List.range (n + 1)).map (fun j => toString (wrapUint64 (w.cbseq + 1 + j))) := by
  obtain ⟨w2, h2, hrun2, hc2, hcap2⟩ := run_saveRecvPairs env c n w History.empty hc hcap
  have hroom : w2.m.c.length < w2.m.cap := by
    rw [hc2, hcap2]; exact hcap
  obtain ⟨⟨w3, h3⟩, hrun3⟩ := Option.isSome_iff_exists.1
    (show (run env [Op.save c] (w2, h2)).isSome = true from by
      simp [run, step, save_of_room w2 c hroom])
  have hrun : run env (saveRecvPairs c n ++ [Op.save c]) (w, History.empty)
      = some (w3, h3) := by
    rw [run_append, hrun2]; exact hrun3
  refine ⟨w3, h3, hrun, ?_⟩
  have hids := run_ids env _ _ _ _ _ hrun
  have hcount : countSaves (saveRecvPairs c n ++ [Op.save c]) = n + 1 := by
    rw [countSaves_append, countSaves_saveRecvPairs]; rfl
  rw [hcount] at hids
  rw [hids]
  rfl

/-- C4, as stated, fails: in the run of 2^64 + 1 saves from the state built by `main` (each
followed by a receive, so that no send blocks), all saves return, the last one assigns
"1", which is not the decimal string of 2^64 + 1, and the assigned IDs are not distinct. -/
theorem save_ids_repeat_after_wrap :
    ∃ w1 h1,
      run (Env.always 200) (saveRecvPairs 0 18446744073709551616 ++ [Op.save 0])
        (World.init 0 "http://h/" 0, History.empty) = some (w1, h1) ∧
      h1.ids.getLast? = some "1" ∧ ¬ h1.ids.Nodup := by
  obtain ⟨w1, h1, hrun, hids⟩ := run_saveRecvPairs_save (Env.always 200) 0
    18446744073709551616 (World.init 0 "http://h/" 0) rfl (by decide)
  have hone : wrapUint64 ((World.init 0 "http://h/" 0).cbseq + 1 + 18446744073709551616) = 1 := by
    decide
  refine ⟨w1, h1, hrun, ?_, ?_⟩
  · rw [hids, getLast?_map_range_succ, hone]
    rfl
  · rw [hids]
    refine not_nodup_map_range_succ _ 18446744073709551616 (by decide) ?_
    rw [hone]
    rfl

/-- C4, amended: in every run that starts with counter 0 and contains fewer than 2^64
saves, the `k`-th save (counted from 1) assigns the decimal string of `k`; the assigned
IDs are non-empty and pairwise distinct. -/
theorem save_ids_below_wrap (env : Env) (ops : List Op) (w w1 : World) (h1 : History)
    (h0 : w.cbseq = 0) (hrun : run env ops (w, History.empty) = some (w1, h1))
    (hlt : countSaves ops < 18446744073709551616) :
    h1.ids = (List.range (countSaves ops)).map (fun j => toString (j + 1)) ∧
      h1.ids.length = countSaves ops ∧
      (∀ id ∈ h1.ids, id ≠ "") ∧ h1.ids.Nodup := by
  have hids : h1.ids = (List.range (countSaves ops)).map (fun j => toString (j + 1)) := by
    rw [run_ids env ops w w1 History.empty h1 hrun, h0]
    simp only [History.empty, List.nil_append]
    apply List.map_congr_left
    intro j hj
    have hj2 : j < countSaves ops := List.mem_range.1 hj
    have : wrapUint64 (0 + 1 + j) = j + 1 := by
      unfold wrapUint64
      omega
    rw [this]
  refine ⟨hids, ?_, ?_, ?_⟩
  · rw [hids]; simp
  · intro id hid
    rw [hids] at hid
    obtain ⟨j, _, rfl⟩ := List.mem_map.1 hid
    exact toString_nat_ne_empty (j + 1)
  · rw [hids]
    apply List.Nodup.map _ (List.nodup_range _)
    intro a b hab
    have := toString_nat_injective (a + 1) (b + 1) hab
    omega

/-- The amended C4 at two saves from the state built by `main`: the IDs are "1" and "2". -/
theorem save_ids_below_wrap_witness :
    ∃ w1 h1, run (Env.always 200) [Op.save 0, Op.recv, Op.save 0]
        (World.init 0 "http://h/" 0, History.empty) = some (w1, h1) ∧
      h1.ids = ["1", "2"] ∧ h1.ids.Nodup := by
  obtain ⟨⟨w1, h1⟩, hr⟩ := Option.isSome_iff_exists.1
    (show (run (Env.always 200) [Op.save 0, Op.recv, Op.save 0]
      (World.init 0 "http://h/" 0, History.empty)).isSome = true from by decide)
  have h := save_ids_below_wrap (Env.always 200) [Op.save 0, Op.recv, Op.save 0]
    (World.init 0 "http://h/" 0) w1 h1 rfl hr (by decide)
  refine ⟨w1, h1, hr, ?_, h.2.2.2⟩
  rw [h.1]
  decide

/-! ## The subscription stream -/

/-- C8: in every state reached by a run from an empty channel, the callbacks received so
far followed by those waiting in the channel are the saved callbacks in the order of the
saves, so each is delivered once and in that order; `subscribe` returns the channel field
and a nil error; and when one more `save(c)` returns, `c` is in the store under its new
ID and has been appended once, behind everything published before. -/
theorem save_publishes_once_in_order (env : Env) (ops : List Op) (w0 w : World) (h : History)
    (hc : w0.m.c = []) (hrun : run env ops (w0, History.empty) = some (w, h)) :
    h.delivered ++ w.m.c = h.saved ∧
      memStorage.subscribe w = (w.m.c, none) ∧
      ∀ c w1 err, memStorage.save w c = some (w1, err) →
        err = none ∧ w1.m.store (w1.heap c).ID = some c ∧ w1.m.c = w.m.c ++ [c] ∧
        h.delivered ++ w1.m.c = h.saved ++ [c] ∧
        memStorage.subscribe w1 = (w.m.c ++ [c], none) := by
  have hinv : h.delivered ++ w.m.c = h.saved :=
    run_stream env ops w0 w History.empty h hrun (by simp [History.empty, hc])
  refine ⟨hinv, rfl, ?_⟩
  intro c w1 err hs
  have hroom := room_of_save w c _ hs
  rw [save_of_room w c hroom] at hs
  simp only [Option.some.injEq, Prod.mk.injEq] at hs
  obtain ⟨hw, herr⟩ := hs
  subst hw
  refine ⟨herr.symm, ?_, rfl, ?_, rfl⟩
  · show Function.update w.m.store _ (some c) (Function.update w.heap c _ c).ID = some c
    rw [Function.update_same, Function.update_same]
  · rw [← hinv, List.append_assoc]

/-- C8 at two saves and one receive from the state built by `main`: the callback at
address 0 was received, the one at address 1 waits in the channel. -/
theorem save_publishes_once_in_order_witness :
    ∃ w h, run (Env.always 200) [Op.save 0, Op.save 1, Op.recv]
        (World.init 0 "http://h/" 0, History.empty) = some (w, h) ∧
      h.delivered ++ w.m.c = h.saved ∧ h.saved = [0, 1] ∧ h.delivered = [0] := by
  obtain ⟨⟨w, h⟩, hr⟩ := Option.isSome_iff_exists.1
    (show (run (Env.always 200) [Op.save 0, Op.save 1, Op.recv]
      (World.init 0 "http://h/" 0, History.empty)).isSome = true from by decide)
  have hh : h = ⟨["1", "2"], [0, 1], [0]⟩ := by
    have h2 := congrArg (fun r => (r.map Prod.snd)) hr
    simp only [Option.map_some'] at h2
    exact (Option.some.inj h2).symm.trans (by decide)
  refine ⟨w, h, hr, (save_publishes_once_in_order (Env.always 200)
    [Op.save 0, Op.save 1, Op.recv] (World.init 0 "http://h/" 0) w h rfl hr).1, ?_, ?_⟩
  · rw [hh]
  · rw [hh]

/-! ## `Done` -/

/-- C10: over every run of `save`, receive, `execute`, `MarkDone` and scheduled tasks, a
`Done` that is true stays true; when the run contains no operation that can call
`MarkDone`, `Done` of every callback is as before; and a scheduled task that called no
`MarkDone` leaves the heap as it was. -/
theorem done_is_monotonic (env : Env) (ops : List Op) (w w1 : World) (h h1 : History)
    (hrun : run env ops (w, h) = some (w1, h1)) (a : Addr) :
    ((w.heap a).Done = true → (w1.heap a).Done = true) ∧
      ((∀ op ∈ ops, op.callsMarkDone = false) → (w1.heap a).Done = (w.heap a).Done) ∧
      (∀ c fuel, (∀ ev ∈ (scheduler.schedule env c fuel w []).trace, ev.isMarkDone = false) →
        ((scheduler.schedule env c fuel w []).w.heap a).Done = (w.heap a).Done) := by
  obtain ⟨hmono, hsame⟩ := run_done env ops w w1 h h1 hrun
  refine ⟨hmono a, fun hno => hsame hno a, ?_⟩
  intro c fuel hno
  rw [(schedule_frame env c fuel w []).2.2.2.2.2 hno]

/-- C10 at a run from a state in which the callback at address 0 is finalized: after
another `save`, a receive, an `execute`, a scheduled task and a `MarkDone`, `Done` is
still true. -/
theorem done_is_monotonic_witness :
    ∃ w1 h1,
      run (Env.always 200)
        [Op.save 0, Op.recv, Op.execute 0, Op.schedule 0 3, Op.markDone 0]
        (World.finalized, History.empty) = some (w1, h1) ∧
      (World.finalized.heap 0).Done = true ∧ (w1.heap 0).Done = true := by
  obtain ⟨⟨w1, h1⟩, hr⟩ := Option.isSome_iff_exists.1
    (show (run (Env.always 200)
      [Op.save 0, Op.recv, Op.execute 0, Op.schedule 0 3, Op.markDone 0]
      (World.finalized, History.empty)).isSome = true from by decide)
  exact ⟨w1, h1, hr, by decide,
    (done_is_monotonic (Env.always 200) _ World.finalized w1 History.empty h1 hr 0).1
      (by decide)⟩

/-! ## The handler of `POST /callback` -/

/-- C9: for a request whose `remote_url` is accepted. When `in` parses to `d` below one
minute, the response is 400 with a message that starts with "bad request: ", whatever the
storage is, and the state is untouched: `save` is not called. When `d` is one minute or
more, a response is never 400, and with `memStorage` (its channel having room) the
handler saves a new callback with the request's URL and deadline `now + d` and answers
200 with message "ok" and the ID that `save` assigned. When `in` does not parse, the
response is 400 and `save` is not called. -/
theorem handleNewCallback_duration_gate (parseRequestURI : String → Bool)
    (parseDuration : String → Option Duration) (w : World) (req : createCallbackRequest)
    (hurl : parseRequestURI req.RemoteURL = true) :
    (∀ d, parseDuration req.Duration = some d → d < Minute →
      ∀ save, ∃ reason, handleNewCallback parseRequestURI parseDuration save w req
        = some (w, ⟨400, some "application/json",
            some (Body.response ("bad request: " ++ reason))⟩)) ∧
    (∀ d, parseDuration req.Duration = some d → Minute ≤ d →
      (∀ save w1 wr, handleNewCallback parseRequestURI parseDuration save w req = some (w1, wr) →
        wr.status ≠ 400) ∧
      (w.m.c.length < w.m.cap →
        ∃ w1, handleNewCallback parseRequestURI parseDuration memStorage.save w req
            = some (w1, ⟨200, some "application/json",
                some (Body.createCallbackResponse "ok" (w1.heap w.nextAddr).ID)⟩) ∧
          memStorage.save (newCallback w req.RemoteURL (w.now + d)).2 w.nextAddr
            = some (w1, none) ∧
          (w1.heap w.nextAddr).ID = toString (wrapUint64 (w.cbseq + 1)) ∧
          (w1.heap w.nextAddr).RemoteURL = req.RemoteURL ∧
          (w1.heap w.nextAddr).Deadline = w.now + d ∧
          (w1.heap w.nextAddr).Done = false ∧
          w1.m.store (toString (wrapUint64 (w.cbseq + 1))) = some w.nextAddr ∧
          w1.m.c = w.m.c ++ [w.nextAddr])) ∧
    (parseDuration req.Duration = none →
      ∀ save, ∃ reason, handleNewCallback parseRequestURI parseDuration save w req
        = some (w, ⟨400, some "application/json",
            some (Body.response ("bad request: " ++ reason))⟩)) := by
  have hm : (1 : Int) * Minute = Minute := one_mul _
  refine ⟨?_, ?_, ?_⟩
  · intro d hd hlt save
    refine ⟨"invalid duration: \"" ++ req.Duration ++ "\" is less than a minute in the future", ?_⟩
    simp [handleNewCallback, hurl, hd, hm, hlt, badRequest, writeJSON, ResponseWriter.fresh]
  · intro d hd hge
    have hnlt : ¬ d < Minute := not_lt.2 hge
    refine ⟨?_, ?_⟩
    · intro save w1 wr hres
      simp only [handleNewCallback, hurl, hd, hm, hnlt, if_false, Bool.true_eq_false] at hres
      cases hs : save (newCallback w req.RemoteURL (Time.Add w.now d)).2
          (newCallback w req.RemoteURL (Time.Add w.now d)).1 with
      | none => rw [hs] at hres; exact Option.noConfusion hres
      | some r =>
        obtain ⟨w2, err⟩ := r
        rw [hs] at hres
        cases err with
        | none =>
          simp only [Option.some.injEq, Prod.mk.injEq] at hres
          rw [← hres.2]
          simp [writeJSON, ResponseWriter.fresh]
        | some e =>
          simp only [Option.some.injEq, Prod.mk.injEq] at hres
          rw [← hres.2]
          simp [internalServerError, writeJSON, ResponseWriter.fresh]
    · intro hroom
      have hroom2 : (newCallback w req.RemoteURL (w.now + d)).2.m.c.length
          < (newCallback w req.RemoteURL (w.now + d)).2.m.cap := hroom
      have hsave := save_of_room (newCallback w req.RemoteURL (w.now + d)).2 w.nextAddr hroom2
      refine ⟨_, ?_, hsave, ?_, ?_, ?_, ?_, ?_, rfl⟩
      · simp only [handleNewCallback, hurl, hd, hm, hnlt, if_false, Bool.true_eq_false]
        have hadd : Time.Add w.now d = w.now + d := rfl
        have hfst : (newCallback w req.RemoteURL (w.now + d)).1 = w.nextAddr := rfl
        rw [hadd, hfst, hsave]
        rfl
      · simp [newCallback]
      · simp [newCallback]
      · simp [newCallback]
      · simp [newCallback]
      · simp [newCallback]
  · intro hd save
    refine ⟨"invalid duration: \"" ++ req.Duration ++ "\"", ?_⟩
    simp [handleNewCallback, hurl, hd, badRequest, writeJSON, ResponseWriter.fresh]

/-- C9 at the state built by `main`, with a duration parser that reads "90s" and "30s":
"90s" is saved under ID "1" with deadline `now + 90 s` and answered "ok", "30s" is answered
400 without a save. -/
theorem handleNewCallback_duration_gate_witness :
    (∃ w1, handleNewCallback (fun _ => true)
        (fun s => if s = "90s" then some 90000000000 else if s = "30s" then some 30000000000
          else none)
        memStorage.save (World.init 1800000000000000000 "" 0) ⟨"http://h/", "90s"⟩
        = some (w1, ⟨200, some "application/json",
            some (Body.createCallbackResponse "ok" (w1.heap 1).ID)⟩) ∧
      (w1.heap 1).ID = "1" ∧ (w1.heap 1).Deadline = 1800000090000000000) ∧
    (∃ reason, handleNewCallback (fun _ => true)
        (fun s => if s = "90s" then some 90000000000 else if s = "30s" then some 30000000000
          else none)
        memStorage.save (World.init 1800000000000000000 "" 0) ⟨"http://h/", "30s"⟩
        = some (World.init 1800000000000000000 "" 0, ⟨400, some "application/json",
            some (Body.response ("bad request: " ++ reason))⟩)) := by
  refine ⟨?_, ?_⟩
  · obtain ⟨w1, h1, _, h3, _, h5, _⟩ :=
      ((handleNewCallback_duration_gate (fun _ => true)
        (fun s => if s = "90s" then some 90000000000 else if s = "30s" then some 30000000000
          else none)
        (World.init 1800000000000000000 "" 0) ⟨"http://h/", "90s"⟩ rfl).2.1
        90000000000 (by decide) (by decide)).2 (by decide)
    exact ⟨w1, h1, h3, h5⟩
  · exact (handleNewCallback_duration_gate (fun _ => true)
      (fun s => if s = "90s" then some 90000000000 else if s = "30s" then some 30000000000
        else none)
      (World.init 1800000000000000000 "" 0) ⟨"http://h/", "30s"⟩ rfl).1
      30000000000 (by decide) (by decide) memStorage.save

/-! ## No execution before the deadline -/

/-- The finalize loop adds only `MarkDone` events. -/
theorem finalizeLoop_events (c : Addr) :
    ∀ (fuel i : Nat) (w : World) (tr : List Event) (ev : Event),
      ev ∈ (finalizeLoop c fuel i w tr).trace → ev ∈ tr ∨ ev = Event.markDone c := by
  intro fuel
  induction fuel with
  | zero => intro i w tr ev h; exact Or.inl h
  | succ n ih =>
    intro i w tr ev h
    have hlast : ev ∈ tr ++ [Event.markDone c] → ev ∈ tr ∨ ev = Event.markDone c := by
      intro hm
      rcases List.mem_append.1 hm with h1 | h1
      · exact Or.inl h1
      · exact Or.inr (List.mem_singleton.1 h1)
    by_cases hi : i ≤ 5
    · cases hcall : callback.callMarkDone w c with
      | none =>
        rw [finalizeLoop_succ_panicked c n i w tr hi hcall] at h
        exact hlast h
      | some r =>
        obtain ⟨w1, err⟩ := r
        cases err with
        | none =>
          rw [finalizeLoop_succ_returned c n i w w1 tr hi hcall] at h
          exact hlast h
        | some e =>
          rw [finalizeLoop_succ_again c n i w w1 tr e hi hcall] at h
          rcases ih i _ _ ev h with h1 | h1
          · exact hlast h1
          · exact Or.inr h1
    · rw [finalizeLoop_succ_gaveUp c n i w tr hi] at h
      exact Or.inl h

/-- Every `execute` event that the task of a callback adds is at an instant not before the
deadline, when the first wait is computed with a true difference below 2^63. -/
theorem schedule_events (env : Env) (c : Addr) :
    ∀ (fuel : Nat) (w : World) (tr : List Event) (ev : Event),
      (w.heap c).Deadline - w.now < 9223372036854775808 →
      ev ∈ (scheduler.schedule env c fuel w tr).trace →
      ev ∈ tr ∨ ev = Event.markDone c ∨
        ∃ t, ev = Event.execute c t ∧ (w.heap c).Deadline ≤ t := by
  intro fuel
  induction fuel with
  | zero => intro w tr ev _ h; exact Or.inl h
  | succ n ih =>
    intro w tr ev hfit h
    have hge := (scheduleWait_ge (w.heap c).Deadline w.now hfit).2
    have hfirst : ev ∈ tr ++
        [Event.execute c (w.now + max (scheduleWait (w.heap c).Deadline w.now) 0)] →
        ev ∈ tr ∨ ev = Event.markDone c ∨
          ∃ t, ev = Event.execute c t ∧ (w.heap c).Deadline ≤ t := by
      intro hm
      rcases List.mem_append.1 hm with h1 | h1
      · exact Or.inl h1
      · exact Or.inr (Or.inr ⟨_, List.mem_singleton.1 h1, hge⟩)
    rcases schedule_succ env c n w tr with ⟨e, hrun, _⟩ | ⟨hrun, _⟩
    · rw [hrun] at h
      have hfit2 : (w.heap c).Deadline
          - (w.now + max (scheduleWait (w.heap c).Deadline w.now) 0) < 9223372036854775808 := by
        linarith
      rcases ih _ _ ev hfit2 h with h1 | h1 | h1
      · exact hfirst h1
      · exact Or.inr (Or.inl h1)
      · exact Or.inr (Or.inr h1)
    · rw [hrun] at h
      rcases finalizeLoop_events c n 0 _ _ ev h with h1 | h1
      · exact hfirst h1
      · exact Or.inr (Or.inl h1)

/-- A request that the handler answers with 200 had a duration that parsed, and the new
callback has the deadline `now + d`. -/
theorem handle_ok_deadline (parseRequestURI : String → Bool)
    (parseDuration : String → Option Duration) (w0 w1 : World) (req : createCallbackRequest)
    (wr : ResponseWriter)
    (h : handleNewCallback parseRequestURI parseDuration memStorage.save w0 req = some (w1, wr))
    (hst : wr.status = 200) :
    ∃ d, parseDuration req.Duration = some d ∧ (w1.heap w0.nextAddr).Deadline = w0.now + d := by
  unfold handleNewCallback at h
  by_cases hu : parseRequestURI req.RemoteURL = false
  · simp only [hu, if_true, Option.some.injEq, Prod.mk.injEq] at h
    rw [← h.2] at hst
    simp [badRequest, writeJSON, ResponseWriter.fresh] at hst
  · have hu2 : parseRequestURI req.RemoteURL = true := by simpa using hu
    simp only [hu2, Bool.true_eq_false, if_false] at h
    cases hd : parseDuration req.Duration with
    | none =>
      simp only [hd, Option.some.injEq, Prod.mk.injEq] at h
      rw [← h.2] at hst
      simp [badRequest, writeJSON, ResponseWriter.fresh] at hst
    | some d =>
      simp only [hd] at h
      by_cases hlt : d < 1 * Minute
      · simp only [hlt, if_true, Option.some.injEq, Prod.mk.injEq] at h
        rw [← h.2] at hst
        simp [badRequest, writeJSON, ResponseWriter.fresh] at hst
      · simp only [hlt, if_false] at h
        refine ⟨d, rfl, ?_⟩
        cases hs : memStorage.save (newCallback w0 req.RemoteURL (Time.Add w0.now d)).2
            (newCallback w0 req.RemoteURL (Time.Add w0.now d)).1 with
        | none => rw [hs] at h; exact Option.noConfusion h
        | some r =>
          obtain ⟨w2, err⟩ := r
          have hroom := room_of_save _ _ _ hs
          rw [hs] at h
          rw [save_of_room _ _ hroom] at hs
          simp only [Option.some.injEq, Prod.mk.injEq] at hs
          obtain ⟨hw2, herr⟩ := hs
          subst herr
          simp only [Option.some.injEq, Prod.mk.injEq] at h
          rw [← h.1, ← hw2]
          simp [newCallback, Time.Add]

/-- C2, amended: when the true difference `deadline - now` is below 2^63 nanoseconds, the
wait that `scheduler.schedule` computes is at least that difference; the task calls
`execute` first at `now + max(wait, 0)`, which is not before the deadline, and every
later call of `execute` of the task is not before the deadline either. The deadline that
the HTTP handler sets from any duration it accepts (`time.ParseDuration` gives an int64)
meets the condition at every clock reading not before the handler's. -/
theorem schedule_not_before_deadline (env : Env) (w : World) (c : Addr) :
    ((w.heap c).Deadline - w.now < 9223372036854775808 →
      (w.heap c).Deadline - w.now ≤ scheduleWait (w.heap c).Deadline w.now ∧
      (w.heap c).Deadline ≤ w.now + max (scheduleWait (w.heap c).Deadline w.now) 0 ∧
      (∀ fuel, ∃ more, (scheduler.schedule env c (fuel + 1) w []).trace
        = Event.execute c (w.now + max (scheduleWait (w.heap c).Deadline w.now) 0) :: more) ∧
      (∀ fuel t, Event.execute c t ∈ (scheduler.schedule env c fuel w []).trace →
        (w.heap c).Deadline ≤ t)) ∧
    (∀ (parseRequestURI : String → Bool) (parseDuration : String → Option Duration)
        (w0 w1 : World) (req : createCallbackRequest) (wr : ResponseWriter),
      (∀ s d, parseDuration s = some d → d ≤ 9223372036854775807) →
      handleNewCallback parseRequestURI parseDuration memStorage.save w0 req = some (w1, wr) →
      wr.status = 200 →
      (w.heap c).Deadline = (w1.heap w0.nextAddr).Deadline → w0.now ≤ w.now →
      (w.heap c).Deadline - w.now < 9223372036854775808) := by
  refine ⟨?_, ?_⟩
  · intro hfit
    obtain ⟨h1, h2⟩ := scheduleWait_ge (w.heap c).Deadline w.now hfit
    refine ⟨h1, h2, ?_, ?_⟩
    · intro fuel
      rcases schedule_succ env c fuel w [] with ⟨e, hrun, _⟩ | ⟨hrun, _⟩
      · rw [hrun]
        obtain ⟨more, hmore⟩ := (schedule_frame env c fuel _ _).1
        exact ⟨more, by rw [hmore]; rfl⟩
      · rw [hrun]
        obtain ⟨more, hmore⟩ := (finalizeLoop_frame c fuel 0 _ _).1
        exact ⟨more, by rw [hmore]; rfl⟩
    · intro fuel t ht
      rcases schedule_events env c fuel w [] _ hfit ht with h3 | h3 | ⟨t1, h3, h4⟩
      · exact absurd h3 (List.not_mem_nil _)
      · exact Event.noConfusion h3
      · injection h3 with _ ht1
        rw [ht1]; exact h4
  · intro parseRequestURI parseDuration w0 w1 req wr hrange hres hst hD hnow
    obtain ⟨d, hd, hdl⟩ := handle_ok_deadline parseRequestURI parseDuration w0 w1 req wr hres hst
    have hdmax := hrange _ _ hd
    rw [hD, hdl]
    linarith

/-- The amended C2 at a callback due 90 s after a clock reading of 2027-01-15: the wait is
90 s and the task calls `execute` first at the deadline. -/
theorem schedule_not_before_deadline_witness :
    (90000000000 : Int) ≤ scheduleWait 1800000090000000000 1800000000000000000 ∧
      (∃ more, (scheduler.schedule (Env.always 200) 0 3
          (World.init 1800000000000000000 "http://h/" 1800000090000000000) []).trace
        = Event.execute 0 1800000090000000000 :: more) := by
  have h := (schedule_not_before_deadline (Env.always 200)
    (World.init 1800000000000000000 "http://h/" 1800000090000000000) 0).1 (by decide)
  exact ⟨h.1, h.2.2.1 2⟩

end Remindme
